import Mathlib

/-!
Verification of the hypercart-lab search dispatcher, cart state container
and debounce wrapper, shallowly embedded from the TypeScript sources
(`src/components/pages/SearchPage.tsx`, `src/hooks/use-cart.ts`,
`src/components/pages/ProductsPage.tsx`).

JavaScript strings are modelled as Lean `String` values operated on as
`List Char`: `toLowerCase` becomes a character-wise `Char.toLower` map,
`String.prototype.includes` becomes the contiguous-sublist test
`listIncludes`, and `split(c)` becomes the recursive splitter `splitP`.
-/

namespace Hypercart

/-- A catalog record, from the `Product` shape used by the search page.
Numeric display fields (price, rating) and image metadata play no role in
any verified property and are elided; `id`, `name`, `description` and
`category` are the fields the search and cart code reads. -/
structure Product where
  id : Nat
  name : String
  description : String
  category : String
deriving DecidableEq, Repr

/-- A cart entry, from the `CartItem` shape: a product with a quantity. -/
structure CartItem where
  product : Product
  quantity : Nat
deriving DecidableEq, Repr

/-- JavaScript `s.split(sep)` on a character class: cut the character list
at every character satisfying `p`, keeping empty pieces (as JS does for
consecutive separators, and for an empty string, which splits to one empty
piece). -/
def splitP (p : Char → Bool) : List Char → List (List Char)
  | [] => [[]]
  | c :: cs =>
    if p c then [] :: splitP p cs
    else
      match splitP p cs with
      | [] => [[c]]
      | t :: ts => (c :: t) :: ts

/-- JavaScript `s.includes(pat)`: `pat` occurs as a contiguous substring of
`s` (the empty pattern always occurs). -/
def listIncludes : List Char → List Char → Bool
  | [], pat => pat.isEmpty
  | c :: s, pat => pat.isPrefixOf (c :: s) || listIncludes s pat

/-- JavaScript `s.toLowerCase()` as a character list. -/
def lowerChars (s : String) : List Char :=
  s.toList.map Char.toLower

/-- `performSearch` line 95: `searchQuery.toLowerCase().split(' ').filter(term
=> term.length > 0)` — lower-case the query, split on the space character,
drop empty terms. -/
def searchTerms (q : String) : List (List Char) :=
  (splitP (fun c => c = ' ') (lowerChars q)).filter (fun t => 0 < t.length)

/-- The per-term match test from `performMainThreadSearch` lines 162-166:
the term occurs in the lower-cased name, description or category. -/
def termMatches (p : Product) (term : List Char) : Bool :=
  listIncludes (lowerChars p.name) term ||
  listIncludes (lowerChars p.description) term ||
  listIncludes (lowerChars p.category) term

/-- `searchTerms.every(term => ...)` — every term must match (AND). -/
def productMatches (terms : List (List Char)) (p : Product) : Bool :=
  terms.all (termMatches p)

/-- The synchronous single-pass strategy (`performMainThreadSearch` lines
176-182): filter the whole catalog at once. -/
def syncFilter (terms : List (List Char)) (ps : List Product) : List Product :=
  ps.filter (productMatches terms)

/-- `const chunkSize = 50` in `performMainThreadSearch`. -/
def chunkSize : Nat := 50

/-- The chunked (micro-yield) strategy's accumulated result
(`performMainThreadSearch` lines 158-172): slice the catalog into
consecutive `chunkSize` pieces, filter each piece, concatenate. -/
def chunkedFilter (terms : List (List Char)) (ps : List Product) : List Product :=
  if h : ps.isEmpty then []
  else syncFilter terms (ps.take chunkSize) ++ chunkedFilter terms (ps.drop chunkSize)
termination_by ps.length
decreasing_by
  have hne : ps ≠ [] := fun hnil => by simp [hnil] at h
  have hlen : 0 < ps.length := List.length_pos.mpr hne
  simp only [List.length_drop, chunkSize]
  omega

/-- The catalog partition produced by the chunked loop: consecutive
`slice(i, i + chunkSize)` pieces. -/
def chunks (ps : List Product) : List (List Product) :=
  if h : ps.isEmpty then []
  else ps.take chunkSize :: chunks (ps.drop chunkSize)
termination_by ps.length
decreasing_by
  have hne : ps ≠ [] := fun hnil => by simp [hnil] at h
  have hlen : 0 < ps.length := List.length_pos.mpr hne
  simp only [List.length_drop, chunkSize]
  omega

/-- The trace of the chunked loop: for each chunk, one synchronous burst
(the chunk together with the filtering work done on it), followed by the
`await microYield()` that gives control back to the scheduler. -/
inductive SearchEv where
  | burst (chunk : List Product) (found : List Product)
  | yld
deriving DecidableEq, Repr

/-- The event trace of the chunked strategy (`performMainThreadSearch`
lines 159-172): each loop iteration filters one `chunkSize` slice and then
yields once. -/
def chunkedRun (terms : List (List Char)) (ps : List Product) : List SearchEv :=
  if h : ps.isEmpty then []
  else
    SearchEv.burst (ps.take chunkSize) (syncFilter terms (ps.take chunkSize)) ::
    SearchEv.yld :: chunkedRun terms (ps.drop chunkSize)
termination_by ps.length
decreasing_by
  have hne : ps ≠ [] := fun hnil => by simp [hnil] at h
  have hlen : 0 < ps.length := List.length_pos.mpr hne
  simp only [List.length_drop, chunkSize]
  omega

/-- The flag snapshot read by the dispatcher (`getFlags()`):
worker offload, cooperative chunking (micro-yield), input delay. -/
structure ExecutionFlags where
  useWorker : Bool
  microYield : Bool
  debounce : Bool
deriving DecidableEq, Repr

/-- Which of the three execution strategies a dispatcher call ran. -/
inductive Strategy where
  | worker
  | chunked
  | sync
deriving DecidableEq, Repr

/-- What one dispatcher invocation did: the strategy that ran (`none` when
the empty-terms early return fired before any strategy) and the result
list stored via `setResults`. -/
structure SearchOutcome where
  strategy : Option Strategy
  results : List Product
deriving DecidableEq, Repr

/-- The background execution channel, seen from the dispatcher: given the
serialized query and catalog it either resolves with a result list or
rejects with an error message (`workerRef.current.execute('search', ...)`). -/
def Channel : Type :=
  String → List Product → Except String (List Product)

/-- `performMainThreadSearch` lines 153-187: pick the chunked or the
single-pass filter by the micro-yield flag, then `setResults(
filteredResults.slice(0, 20))`. -/
def performMainThreadSearch (flags : ExecutionFlags) (terms : List (List Char))
    (ps : List Product) : SearchOutcome :=
  if flags.microYield then
    ⟨some Strategy.chunked, (chunkedFilter terms ps).take 20⟩
  else
    ⟨some Strategy.sync, (syncFilter terms ps).take 20⟩

/-- The dispatcher `performSearch` lines 94-132: compute the terms; on no
terms set empty results and return; if the worker flag is set and a channel
exists (`flags.useWorker && workerRef.current`), send the query and catalog
to it and use its response sliced to 20, falling back to
`performMainThreadSearch` when it rejects; otherwise run on the main
thread. The function is total: a channel rejection never escapes. -/
def performSearch (flags : ExecutionFlags) (chan : Option Channel)
    (query : String) (ps : List Product) : SearchOutcome :=
  let terms := searchTerms query
  if terms.isEmpty then ⟨none, []⟩
  else
    match flags.useWorker, chan with
    | true, some f =>
      match f query ps with
      | Except.ok r => ⟨some Strategy.worker, r.take 20⟩
      | Except.error _ => performMainThreadSearch flags terms ps
    | _, _ => performMainThreadSearch flags terms ps

/-! ### Debounce wrapper

`handleInputChange` lines 190-212 with the debounce flag on: every input
event clears the pending `setTimeout` (if any) and schedules
`performSearch(value)` 300ms later. The model runs a time-ordered list of
`(time, value)` input events against the single pending-timer slot and
collects the timer callbacks that actually fire. A pending timer due at or
before the next event's arrival time fires before that event is handled;
otherwise the event's `clearTimeout` cancels it. -/

/-- The debounce delay: `setTimeout(..., 300)`. -/
def debounceDelay : Nat := 300

/-- Run the debounced input handler over time-ordered events, starting from
a pending-timer slot; returns the `(fireTime, query)` dispatcher
invocations that fire. -/
def debounceGo : Option (Nat × String) → List (Nat × String) → List (Nat × String)
  | none, [] => []
  | some pend, [] => [pend]
  | none, (t, v) :: rest => debounceGo (some (t + debounceDelay, v)) rest
  | some (ft, fv), (t, v) :: rest =>
    if ft ≤ t then (ft, fv) :: debounceGo (some (t + debounceDelay, v)) rest
    else debounceGo (some (t + debounceDelay, v)) rest

/-- The dispatcher invocations produced by a burst of debounced input
events (time-ordered, no timer pending initially). -/
def debounceInvocations (events : List (Nat × String)) : List (Nat × String) :=
  debounceGo none events

/-! ### Cart state container

`use-cart.ts`: a module-global `globalCart`, a listener set, persistence to
storage, and a `setCart` accepting a value or a functional updater applied
to the global cart. Listeners are identified by subscriber ids; a delivery
of a cart value to a listener is recorded as a pair. -/

/-- The cart container's state: the global cart, the persisted copy
(`localStorage` under `hypercart-cart`), and the registered listeners
(identified by subscriber ids). -/
structure CartState where
  globalCart : List CartItem
  stored : List CartItem
  listeners : List Nat
deriving Repr

/-- `notifyListeners`: every registered listener is called with the new
cart value (the code passes a fresh copy `[...globalCart]`; copying is
identity on immutable values here). Each delivery is recorded as
`(listener id, cart value)`. -/
def notifyListeners (s : CartState) : List (Nat × List CartItem) :=
  s.listeners.map (fun l => (l, s.globalCart))

/-- `updateGlobalCart`: replace the global cart, persist it, notify all
listeners. Returns the new state and the deliveries made. -/
def updateGlobalCart (newCart : List CartItem) (s : CartState) :
    CartState × List (Nat × List CartItem) :=
  let s' : CartState := { s with globalCart := newCart, stored := newCart }
  (s', notifyListeners s')

/-- The argument of `setCart`: a direct value or a functional updater. -/
inductive CartUpdate where
  | value (cart : List CartItem)
  | updater (f : List CartItem → List CartItem)

/-- `setCart`: resolve a functional updater against the current global
cart (`typeof newCart === 'function' ? newCart(globalCart) : newCart`),
then run `updateGlobalCart`. -/
def setCart (u : CartUpdate) (s : CartState) :
    CartState × List (Nat × List CartItem) :=
  let newCart :=
    match u with
    | CartUpdate.value c => c
    | CartUpdate.updater f => f s.globalCart
  updateGlobalCart newCart s

/-- The cart value `setCart` resolves an update to. -/
def resolveUpdate (u : CartUpdate) (current : List CartItem) : List CartItem :=
  match u with
  | CartUpdate.value c => c
  | CartUpdate.updater f => f current

/-- `handleAddToCart`'s functional updater (SearchPage lines 231-244,
ProductsPage lines 92-108): if an entry with the product's id exists,
increment that entry's quantity via `map`; otherwise append a fresh
`{ product, quantity: 1 }` entry. -/
def handleAddToCart (p : Product) (cart : List CartItem) : List CartItem :=
  match cart.find? (fun item => item.product.id == p.id) with
  | some _ =>
    cart.map (fun item =>
      if item.product.id == p.id then { item with quantity := item.quantity + 1 }
      else item)
  | none => cart ++ [⟨p, 1⟩]

/-! ### Concrete demo data, used by counterexamples and witnesses -/

/-- The spec's case-insensitivity example product. -/
def smartphoneCase : Product :=
  ⟨1, "Smartphone Case", "A protective case", "Accessories"⟩

/-- The spec's example-scenario product. -/
def wirelessMouse : Product :=
  ⟨2, "Wireless Mouse", "An ergonomic mouse", "Electronics"⟩

/-- A product whose name contains a tab character. -/
def tabProduct : Product := ⟨3, "a\tb", "", ""⟩

/-- A channel that always rejects. -/
def rejectingChannel : Channel := fun _ _ => Except.error "worker failed"

/-- A channel that always resolves with a fixed result list. -/
def okChannel : Channel := fun _ _ => Except.ok [wirelessMouse]

/-- A 51-product catalog, larger than one chunk. -/
def bulk51 : List Product := List.replicate 51 wirelessMouse

/-- A 21-product catalog, larger than the 20-result cap. -/
def bulk21 : List Product := List.replicate 21 wirelessMouse

/-! ### Basic facts about the embedded string operations -/

/-- `listIncludes` decides contiguous-substring occurrence. -/
lemma listIncludes_iff (s pat : List Char) :
    listIncludes s pat = true ↔ pat <:+: s := by
  induction s with
  | nil =>
    simp only [listIncludes, List.isEmpty_iff, List.infix_nil]
  | cons c s ih =>
    simp only [listIncludes, Bool.or_eq_true, ih,
      List.isPrefixOf_iff_prefix]
    exact Iff.symm List.infix_cons_iff

/-- Filtering pieces by positive length is filtering by non-emptiness. -/
lemma filter_length_pos_eq (l : List (List Char)) :
    l.filter (fun t => 0 < t.length) = l.filter (fun t => t ≠ []) := by
  apply List.filter_congr
  intro t _
  cases t <;> simp

/-! ### Equivalence of the chunked and synchronous strategies -/

/-- Step equation of `chunkedFilter` on a non-empty catalog. -/
lemma chunkedFilter_cons (terms : List (List Char)) (ps : List Product)
    (h : ps ≠ []) :
    chunkedFilter terms ps =
      syncFilter terms (ps.take chunkSize) ++
        chunkedFilter terms (ps.drop chunkSize) := by
  rw [chunkedFilter]
  simp [h]

/-- `chunkedFilter` on the empty catalog. -/
lemma chunkedFilter_nil (terms : List (List Char)) :
    chunkedFilter terms [] = [] := by
  rw [chunkedFilter]
  simp

/-- The chunk-by-chunk filter equals the single-pass filter. -/
lemma chunkedFilter_eq (terms : List (List Char)) (ps : List Product) :
    chunkedFilter terms ps = syncFilter terms ps := by
  have H : ∀ n ps, List.length ps ≤ n → chunkedFilter terms ps = syncFilter terms ps := by
    intro n
    induction n with
    | zero =>
      intro ps hl
      have hnil : ps = [] := List.eq_nil_of_length_eq_zero (Nat.le_zero.mp hl)
      subst hnil
      simp [chunkedFilter_nil, syncFilter]
    | succ n ih =>
      intro ps hl
      by_cases hps : ps = []
      · subst hps; simp [chunkedFilter_nil, syncFilter]
      · have hlen : 0 < ps.length := List.length_pos.mpr hps
        rw [chunkedFilter_cons terms ps hps,
          ih (ps.drop chunkSize) (by simp [chunkSize]; omega)]
        simp [syncFilter, ← List.filter_append, List.take_append_drop]
  exact H ps.length ps le_rfl

/-! ### The spec's match contract -/

/-- The spec's match predicate, written from its words: "a Product matches
if every whitespace-separated, lower-cased query term is a substring of
the product's lower-cased name, description, or category". Terms are the
non-empty pieces of the lower-cased query cut at whitespace characters. -/
def specMatchesWS (q : String) (p : Product) : Prop :=
  ∀ t ∈ (splitP Char.isWhitespace (lowerChars q)).filter (fun t => t ≠ []),
    t <:+: lowerChars p.name ∨ t <:+: lowerChars p.description ∨
      t <:+: lowerChars p.category

/-- The spec's match predicate amended to cut terms at the space character
only (what `split(' ')` does), instead of at every whitespace character. -/
def specMatchesSpace (q : String) (p : Product) : Prop :=
  ∀ t ∈ (splitP (fun c => c = ' ') (lowerChars q)).filter (fun t => t ≠ []),
    t <:+: lowerChars p.name ∨ t <:+: lowerChars p.description ∨
      t <:+: lowerChars p.category

instance (q : String) (p : Product) : Decidable (specMatchesWS q p) := by
  unfold specMatchesWS
  exact List.decidableBAll _ _

instance (q : String) (p : Product) : Decidable (specMatchesSpace q p) := by
  unfold specMatchesSpace
  exact List.decidableBAll _ _

/-- `productMatches` holds exactly when every term occurs in one of the
three lower-cased searched fields. -/
lemma productMatches_iff (terms : List (List Char)) (p : Product) :
    productMatches terms p = true ↔
      ∀ t ∈ terms, t <:+: lowerChars p.name ∨ t <:+: lowerChars p.description ∨
        t <:+: lowerChars p.category := by
  simp [productMatches, termMatches, List.all_eq_true, Bool.or_eq_true,
    listIncludes_iff, or_assoc]

/-- C1 (as stated, refuted): with the tab-separated query "phone\tcase"
against a catalog holding only "Smartphone Case", the code's filter keeps
nothing (the single space-split term "phone\tcase" occurs in no field),
while the claim's whitespace-separated terms "phone" and "case" both occur
in the lower-cased name — so the filter output is not the set of products
matching the claim's predicate. -/
theorem search_whitespace_counterexample :
    ¬ (smartphoneCase ∈ syncFilter (searchTerms "phone\tcase") [smartphoneCase] ↔
        (smartphoneCase ∈ [smartphoneCase] ∧
          specMatchesWS "phone\tcase" smartphoneCase)) := by
  decide

/-- C1 (amended): for every query, catalog and product, the filter keeps
exactly the products for which every space-separated (not: every
whitespace-separated), lower-cased query term is a substring of the
product's lower-cased name, description, or category; matching is
case-insensitive because both sides are lower-cased, and multi-term
queries use AND semantics (`∀ t ∈ terms`). -/
theorem search_matches_spec (q : String) (ps : List Product) (p : Product) :
    p ∈ syncFilter (searchTerms q) ps ↔ p ∈ ps ∧ specMatchesSpace q p := by
  unfold syncFilter specMatchesSpace
  rw [List.mem_filter, productMatches_iff]
  unfold searchTerms
  rw [filter_length_pos_eq]

/-- C2: for every query and catalog, filtering the catalog chunk by chunk
and concatenating the chunk results equals filtering the whole catalog in
one pass, so the chunked and synchronous strategies store identical result
lists for any flag settings. -/
theorem chunked_eq_sync (q : String) (ps : List Product) :
    chunkedFilter (searchTerms q) ps = syncFilter (searchTerms q) ps ∧
    ∀ w d w' d' : Bool,
      (performMainThreadSearch ⟨w, true, d⟩ (searchTerms q) ps).results =
        (performMainThreadSearch ⟨w', false, d'⟩ (searchTerms q) ps).results := by
  refine ⟨chunkedFilter_eq _ _, ?_⟩
  intro w d w' d'
  simp [performMainThreadSearch, chunkedFilter_eq]

/-- C1 witness: the spec's own case-insensitivity instance — querying
"PHONE" keeps the product named "Smartphone Case". -/
theorem search_matches_spec_witness :
    smartphoneCase ∈ syncFilter (searchTerms "PHONE") [smartphoneCase] ↔
      smartphoneCase ∈ [smartphoneCase] ∧ specMatchesSpace "PHONE" smartphoneCase :=
  search_matches_spec "PHONE" [smartphoneCase] smartphoneCase

/-- C2 witness: the chunk-by-chunk filter of a 51-product catalog equals
its single-pass filter. -/
theorem chunked_eq_sync_witness :
    chunkedFilter (searchTerms "mouse") bulk51 =
      syncFilter (searchTerms "mouse") bulk51 :=
  (chunked_eq_sync "mouse" bulk51).1

/-! ### Dispatcher lemmas -/

/-- Both main-thread strategies store the synchronous filter's first 20
results; only the recorded strategy differs. -/
lemma performMainThreadSearch_eq (flags : ExecutionFlags)
    (terms : List (List Char)) (ps : List Product) :
    performMainThreadSearch flags terms ps =
      ⟨some (if flags.microYield then Strategy.chunked else Strategy.sync),
        (syncFilter terms ps).take 20⟩ := by
  unfold performMainThreadSearch
  by_cases hm : flags.microYield <;> simp [hm, chunkedFilter_eq]

/-- With at least one term, a set worker flag, an available channel and a
resolving response, the dispatcher uses the response sliced to 20. -/
lemma performSearch_worker_ok (flags : ExecutionFlags) (f : Channel)
    (q : String) (ps : List Product) (r : List Product)
    (hterms : searchTerms q ≠ []) (hw : flags.useWorker = true)
    (hok : f q ps = Except.ok r) :
    performSearch flags (some f) q ps = ⟨some Strategy.worker, r.take 20⟩ := by
  have hne : (searchTerms q).isEmpty = false := by
    simp [List.isEmpty_iff, hterms]
  unfold performSearch
  simp only [hne, Bool.false_eq_true, if_false, hw, hok]

/-- With at least one term, the dispatcher runs on the main thread whenever
the worker flag is off, the channel is missing, or the channel rejects. -/
lemma performSearch_local (flags : ExecutionFlags) (chan : Option Channel)
    (q : String) (ps : List Product)
    (hterms : searchTerms q ≠ [])
    (hloc : flags.useWorker = false ∨ chan = none ∨
      ∃ f e, chan = some f ∧ f q ps = Except.error e) :
    performSearch flags chan q ps =
      ⟨some (if flags.microYield then Strategy.chunked else Strategy.sync),
        (syncFilter (searchTerms q) ps).take 20⟩ := by
  have hne : (searchTerms q).isEmpty = false := by
    simp [List.isEmpty_iff, hterms]
  unfold performSearch
  simp only [hne, Bool.false_eq_true, if_false]
  rcases hloc with hw | hchan | ⟨f, e, hchan, herr⟩
  · cases chan <;> simp [hw, performMainThreadSearch_eq]
  · subst hchan
    cases hwv : flags.useWorker <;> simp [performMainThreadSearch_eq]
  · subst hchan
    cases hwv : flags.useWorker <;> simp [hwv, herr, performMainThreadSearch_eq]

/-- C3: when the channel rejects, or no channel is available, the
dispatcher falls back to local processing in the same call (no retry is
possible: the model sends at most one request per invocation, and
`performSearch` is a total function into `SearchOutcome`, so no rejection
escapes to the caller), does not record the worker strategy, and its
result list is exactly what the synchronous strategy stores: the first 20
synchronous-filter results. -/
theorem worker_failure_fallback (flags : ExecutionFlags) (f : Channel)
    (q : String) (ps : List Product) (e : String)
    (hterms : searchTerms q ≠ [])
    (hfail : f q ps = Except.error e) :
    (performSearch flags (some f) q ps).results =
      (syncFilter (searchTerms q) ps).take 20 ∧
    (performSearch flags (some f) q ps).strategy ≠ some Strategy.worker ∧
    (performSearch flags none q ps).results =
      (syncFilter (searchTerms q) ps).take 20 ∧
    (performSearch flags none q ps).strategy ≠ some Strategy.worker := by
  rw [performSearch_local flags (some f) q ps hterms (Or.inr (Or.inr ⟨f, e, rfl, hfail⟩)),
    performSearch_local flags none q ps hterms (Or.inr (Or.inl rfl))]
  by_cases hm : flags.microYield <;> simp [hm]

/-- C3 witness: an always-rejecting channel on the spec's example catalog
still yields the synchronous result list and a non-worker strategy. -/
theorem worker_failure_fallback_witness :
    (performSearch ⟨true, false, false⟩ (some rejectingChannel) "case"
        [wirelessMouse, smartphoneCase]).results =
      (syncFilter (searchTerms "case") [wirelessMouse, smartphoneCase]).take 20 ∧
    (performSearch ⟨true, false, false⟩ (some rejectingChannel) "case"
        [wirelessMouse, smartphoneCase]).strategy ≠ some Strategy.worker := by
  have h := worker_failure_fallback ⟨true, false, false⟩ rejectingChannel "case"
    [wirelessMouse, smartphoneCase] "worker failed" (by decide) rfl
  exact ⟨h.1, h.2.1⟩

/-- C4: for every query with at least one term and more than 20 matching
products, the local strategies (worker flag irrelevant, no channel) store
exactly 20 results, namely the full synchronous filter — the whole catalog
filtered first, in catalog insertion order — truncated once at the end;
the result list is a prefix of the full match list. -/
theorem truncation_after_filter (flags : ExecutionFlags) (q : String)
    (ps : List Product)
    (hterms : searchTerms q ≠ [])
    (hcount : 20 < (syncFilter (searchTerms q) ps).length) :
    (performSearch flags none q ps).results.length = 20 ∧
    (performSearch flags none q ps).results =
      (syncFilter (searchTerms q) ps).take 20 ∧
    (performSearch flags none q ps).results <+: syncFilter (searchTerms q) ps := by
  rw [performSearch_local flags none q ps hterms (Or.inr (Or.inl rfl))]
  refine ⟨?_, rfl, ?_⟩
  · simp only [List.length_take]
    omega
  · exact ⟨(syncFilter (searchTerms q) ps).drop 20,
      List.take_append_drop 20 (syncFilter (searchTerms q) ps)⟩

/-- C4 witness: a 21-product catalog in which every product matches
"mouse" yields exactly 20 results, the prefix of the full match list. -/
theorem truncation_after_filter_witness :
    (performSearch ⟨false, true, false⟩ none "mouse" bulk21).results.length = 20 ∧
    (performSearch ⟨false, true, false⟩ none "mouse" bulk21).results =
      (syncFilter (searchTerms "mouse") bulk21).take 20 := by
  have h := truncation_after_filter ⟨false, true, false⟩ "mouse" bulk21
    (by decide) (by decide)
  exact ⟨h.1, h.2.1⟩

/-- C5 (as stated, refuted): the query made of a single tab character is a
non-empty, whitespace-only query, yet the dispatcher does invoke a
strategy for it (the synchronous one here), and against a catalog whose
product name contains a tab it even returns a non-empty result list. -/
theorem empty_query_counterexample :
    (performSearch ⟨false, false, false⟩ none "\t" [tabProduct]).strategy ≠ none ∧
    (performSearch ⟨false, false, false⟩ none "\t" [tabProduct]).results ≠ [] := by
  decide

/-- C5 (amended): for every flag setting, channel and catalog, a query
consisting only of space characters (in particular the empty query) makes
the dispatcher store an empty result list and return before any of the
three strategies is invoked. -/
theorem empty_query_no_strategy (flags : ExecutionFlags) (chan : Option Channel)
    (q : String) (ps : List Product)
    (hsp : ∀ c ∈ q.toList, c = ' ') :
    performSearch flags chan q ps = ⟨none, []⟩ := by
  have hterms : searchTerms q = [] := by
    unfold searchTerms lowerChars
    have H : ∀ l : List Char, (∀ c ∈ l, c = ' ') →
        (splitP (fun c => c = ' ') (l.map Char.toLower)).filter
          (fun t => 0 < t.length) = [] := by
      intro l
      induction l with
      | nil => intro _; rfl
      | cons c cs ih =>
        intro h
        have hc : c = ' ' := h c (List.mem_cons_self c cs)
        subst hc
        have hlow : Char.toLower ' ' = ' ' := rfl
        have step : splitP (fun c => c = ' ') (' ' :: cs.map Char.toLower) =
            [] :: splitP (fun c => c = ' ') (cs.map Char.toLower) := by
          simp [splitP]
        rw [List.map_cons, hlow, step, List.filter_cons]
        simpa using ih (fun d hd => h d (List.mem_cons_of_mem _ hd))
    exact H q.toList hsp
  unfold performSearch
  simp [hterms]

/-- C5 witness: the three-space query with all flags on and a channel
present yields the no-strategy, empty-results outcome. -/
theorem empty_query_no_strategy_witness :
    performSearch ⟨true, true, true⟩ (some okChannel) "   " [smartphoneCase] =
      ⟨none, []⟩ := by
  exact empty_query_no_strategy ⟨true, true, true⟩ (some okChannel) "   "
    [smartphoneCase] (by decide)

/-- C6: under the debounce model of `handleInputChange` (each input event
cancels the pending timer and schedules the dispatcher 300ms later), input
events at t=0 and t=100 produce exactly one dispatcher invocation, at
t=400, carrying the t=100 query value. -/
theorem debounce_last_call_wins (v₁ v₂ : String) :
    debounceInvocations [(0, v₁), (100, v₂)] = [(400, v₂)] := by
  simp [debounceInvocations, debounceGo, debounceDelay]

/-- C6 witness: typing "w" at t=0 and "wi" at t=100 fires one dispatcher
call at t=400 with "wi". -/
theorem debounce_last_call_wins_witness :
    debounceInvocations [(0, "w"), (100, "wi")] = [(400, "wi")] :=
  debounce_last_call_wins "w" "wi"

/-- C7: strategy precedence of one dispatcher call, given at least one
term: a set worker flag with an available, resolving channel uses the
channel response; with the worker path unavailable (flag off or no
channel), a set chunking flag runs the chunked strategy; otherwise the
whole catalog is filtered synchronously in one pass. -/
theorem strategy_precedence (flags : ExecutionFlags) (chan : Option Channel)
    (q : String) (ps : List Product)
    (hterms : searchTerms q ≠ []) :
    (∀ f r, flags.useWorker = true → chan = some f → f q ps = Except.ok r →
      performSearch flags chan q ps = ⟨some Strategy.worker, r.take 20⟩) ∧
    ((flags.useWorker = false ∨ chan = none) → flags.microYield = true →
      performSearch flags chan q ps =
        ⟨some Strategy.chunked, (chunkedFilter (searchTerms q) ps).take 20⟩) ∧
    ((flags.useWorker = false ∨ chan = none) → flags.microYield = false →
      performSearch flags chan q ps =
        ⟨some Strategy.sync, (syncFilter (searchTerms q) ps).take 20⟩) := by
  refine ⟨?_, ?_, ?_⟩
  · intro f r hw hchan hok
    subst hchan
    exact performSearch_worker_ok flags f q ps r hterms hw hok
  · intro hloc hm
    rw [performSearch_local flags chan q ps hterms
      (hloc.elim Or.inl (fun h => Or.inr (Or.inl h)))]
    simp [hm, chunkedFilter_eq]
  · intro hloc hm
    rw [performSearch_local flags chan q ps hterms
      (hloc.elim Or.inl (fun h => Or.inr (Or.inl h)))]
    simp [hm]

/-- C7 witness: the three branches at concrete inputs — worker flag with a
resolving channel uses the response; chunking flag without a channel runs
chunked; neither flag runs the single synchronous pass. -/
theorem strategy_precedence_witness :
    performSearch ⟨true, true, false⟩ (some okChannel) "case" [smartphoneCase] =
      ⟨some Strategy.worker, [wirelessMouse].take 20⟩ ∧
    performSearch ⟨false, true, false⟩ none "case" [smartphoneCase] =
      ⟨some Strategy.chunked,
        (chunkedFilter (searchTerms "case") [smartphoneCase]).take 20⟩ ∧
    performSearch ⟨false, false, false⟩ none "case" [smartphoneCase] =
      ⟨some Strategy.sync,
        (syncFilter (searchTerms "case") [smartphoneCase]).take 20⟩ := by
  refine ⟨?_, ?_, ?_⟩
  · exact (strategy_precedence ⟨true, true, false⟩ (some okChannel) "case"
      [smartphoneCase] (by decide)).1 okChannel [wirelessMouse] rfl rfl rfl
  · exact (strategy_precedence ⟨false, true, false⟩ none "case"
      [smartphoneCase] (by decide)).2.1 (Or.inr rfl) rfl
  · exact (strategy_precedence ⟨false, false, false⟩ none "case"
      [smartphoneCase] (by decide)).2.2 (Or.inr rfl) rfl

/-! ### Structure of the chunked schedule -/

/-- Induction along the chunked loop: peel `chunkSize` products at a time. -/
lemma chunks_induction (motive : List Product → Prop)
    (h0 : motive [])
    (h1 : ∀ ps, ps ≠ [] → motive (ps.drop chunkSize) → motive ps) :
    ∀ ps, motive ps := by
  have H : ∀ n ps, List.length ps ≤ n → motive ps := by
    intro n
    induction n with
    | zero =>
      intro ps hl
      rw [List.eq_nil_of_length_eq_zero (Nat.le_zero.mp hl)]
      exact h0
    | succ n ih =>
      intro ps hl
      by_cases hps : ps = []
      · subst hps; exact h0
      · have hlen : 0 < ps.length := List.length_pos.mpr hps
        exact h1 ps hps (ih _ (by simp [chunkSize]; omega))
  exact fun ps => H ps.length ps le_rfl

lemma chunks_nil : chunks [] = [] := by
  rw [chunks]
  rfl

lemma chunks_cons (ps : List Product) (h : ps ≠ []) :
    chunks ps = ps.take chunkSize :: chunks (ps.drop chunkSize) := by
  rw [chunks]
  simp [h]

lemma chunkedRun_nil (terms : List (List Char)) : chunkedRun terms [] = [] := by
  rw [chunkedRun]
  rfl

lemma chunkedRun_cons (terms : List (List Char)) (ps : List Product) (h : ps ≠ []) :
    chunkedRun terms ps =
      SearchEv.burst (ps.take chunkSize) (syncFilter terms (ps.take chunkSize)) ::
      SearchEv.yld :: chunkedRun terms (ps.drop chunkSize) := by
  rw [chunkedRun]
  simp [h]

lemma chunks_eq_nil_iff (ps : List Product) : chunks ps = [] ↔ ps = [] := by
  constructor
  · intro h
    by_contra hps
    rw [chunks_cons ps hps] at h
    exact List.cons_ne_nil _ _ h
  · intro h
    subst h
    exact chunks_nil

lemma chunks_flatten_eq (ps : List Product) : (chunks ps).flatten = ps := by
  induction ps using chunks_induction with
  | h0 => simp [chunks_nil]
  | h1 ps hne ih =>
    rw [chunks_cons ps hne]
    simp [ih, List.take_append_drop]

lemma chunks_mem_length (ps : List Product) :
    ∀ c ∈ chunks ps, 0 < c.length ∧ c.length ≤ chunkSize := by
  induction ps using chunks_induction with
  | h0 => simp [chunks_nil]
  | h1 ps hne ih =>
    rw [chunks_cons ps hne]
    intro c hc
    rcases List.mem_cons.mp hc with hh | ht
    · subst hh
      have hlen : 0 < ps.length := List.length_pos.mpr hne
      have h50 : (0 : Nat) < chunkSize := by decide
      constructor <;> simp [List.length_take] <;> omega
    · exact ih c ht

lemma chunks_full_length (ps : List Product) :
    ∀ i, i + 1 < (chunks ps).length →
      ∀ c, (chunks ps)[i]? = some c → c.length = chunkSize := by
  induction ps using chunks_induction with
  | h0 => simp [chunks_nil]
  | h1 ps hne ih =>
    rw [chunks_cons ps hne]
    intro i hi c hc
    cases i with
    | zero =>
      simp only [List.getElem?_cons_zero, Option.some.injEq] at hc
      subst hc
      simp only [List.length_cons] at hi
      have hcs : chunks (ps.drop chunkSize) ≠ [] := by
        intro hnil
        rw [hnil] at hi
        simp at hi
      have hdrop : ps.drop chunkSize ≠ [] := (chunks_eq_nil_iff _).not.mp hcs
      have hlen : chunkSize < ps.length := by
        by_contra hle
        exact hdrop (List.drop_eq_nil_of_le (by omega))
      simp [List.length_take]
      omega
    | succ i =>
      simp only [List.getElem?_cons_succ] at hc
      simp only [List.length_cons] at hi
      exact ih i (by omega) c hc

lemma chunkedRun_eq_bind (terms : List (List Char)) (ps : List Product) :
    chunkedRun terms ps =
      (chunks ps).flatMap
        (fun c => [SearchEv.burst c (syncFilter terms c), SearchEv.yld]) := by
  induction ps using chunks_induction with
  | h0 => simp [chunkedRun_nil, chunks_nil]
  | h1 ps hne ih =>
    rw [chunkedRun_cons terms ps hne, chunks_cons ps hne]
    simp [ih]

/-- C8: the chunked strategy partitions the catalog into consecutive
chunks that concatenate back to the catalog, every chunk is non-empty and
at most 50 products, every chunk except possibly the last is exactly 50,
and the loop's event trace is, per chunk, one synchronous burst filtering
that whole chunk followed immediately by one yield — so no synchronous
burst covers more than one 50-product chunk. -/
theorem chunked_schedule (terms : List (List Char)) (ps : List Product) :
    (chunks ps).flatten = ps ∧
    (∀ c ∈ chunks ps, 0 < c.length ∧ c.length ≤ 50) ∧
    (∀ i, i + 1 < (chunks ps).length →
      ∀ c, (chunks ps)[i]? = some c → c.length = 50) ∧
    chunkedRun terms ps =
      (chunks ps).flatMap
        (fun c => [SearchEv.burst c (syncFilter terms c), SearchEv.yld]) := by
  exact ⟨chunks_flatten_eq ps, chunks_mem_length ps, chunks_full_length ps,
    chunkedRun_eq_bind terms ps⟩

/-- C8 witness: on a 51-product catalog the first chunk holds exactly 50
products and the chunks concatenate to the catalog. -/
theorem chunked_schedule_witness :
    (chunks bulk51).flatten = bulk51 ∧
    (chunks bulk51)[0]?.map List.length = some 50 := by
  have h := chunked_schedule (searchTerms "mouse") bulk51
  have hcons : chunks bulk51 =
      bulk51.take chunkSize :: chunks (bulk51.drop chunkSize) :=
    chunks_cons bulk51 (by decide)
  have hcons2 : chunks (bulk51.drop chunkSize) =
      (bulk51.drop chunkSize).take chunkSize ::
        chunks ((bulk51.drop chunkSize).drop chunkSize) :=
    chunks_cons _ (by decide)
  have hnil2 : chunks ((bulk51.drop chunkSize).drop chunkSize) = [] := by
    have hd : (bulk51.drop chunkSize).drop chunkSize = [] := by decide
    rw [hd]
    exact chunks_nil
  have hlen : (chunks bulk51).length = 2 := by
    rw [hcons, hcons2, hnil2]
    rfl
  have h0 : (chunks bulk51)[0]? = some (bulk51.take chunkSize) := by
    rw [hcons]
    simp
  refine ⟨h.1, ?_⟩
  rw [h0]
  exact congrArg some (h.2.2.1 0 (by rw [hlen]; omega) (bulk51.take chunkSize) h0)

/-! ### Cart state container -/

/-- C9: one `setCart` step (direct value or functional updater applied to
the current global cart) replaces the global cart with the resolved value
in a single state transition, persists the same value, leaves the listener
registry unchanged, delivers exactly that value to every registered
subscriber, and delivers nothing to anyone not registered. -/
theorem cart_update_propagation (u : CartUpdate) (s : CartState) :
    (setCart u s).1.globalCart = resolveUpdate u s.globalCart ∧
    (setCart u s).1.stored = resolveUpdate u s.globalCart ∧
    (setCart u s).1.listeners = s.listeners ∧
    (∀ l ∈ s.listeners, (l, resolveUpdate u s.globalCart) ∈ (setCart u s).2) ∧
    (∀ l c, l ∉ s.listeners → (l, c) ∉ (setCart u s).2) ∧
    (∀ l c, (l, c) ∈ (setCart u s).2 → c = resolveUpdate u s.globalCart) := by
  cases u with
  | value cv =>
    refine ⟨rfl, rfl, rfl, ?_, ?_, ?_⟩
    · intro l hl
      simp only [setCart, updateGlobalCart, notifyListeners, resolveUpdate,
        List.mem_map]
      exact ⟨l, hl, rfl⟩
    · intro l c hl hmem
      simp only [setCart, updateGlobalCart, notifyListeners, List.mem_map] at hmem
      rcases hmem with ⟨l', hl', heq⟩
      exact hl (by simpa [← (Prod.mk.injEq _ _ _ _).mp heq |>.1] using hl')
    · intro l c hmem
      simp only [setCart, updateGlobalCart, notifyListeners, List.mem_map] at hmem
      rcases hmem with ⟨l', _, heq⟩
      exact ((Prod.mk.injEq _ _ _ _).mp heq).2.symm
  | updater f =>
    refine ⟨rfl, rfl, rfl, ?_, ?_, ?_⟩
    · intro l hl
      simp only [setCart, updateGlobalCart, notifyListeners, resolveUpdate,
        List.mem_map]
      exact ⟨l, hl, rfl⟩
    · intro l c hl hmem
      simp only [setCart, updateGlobalCart, notifyListeners, List.mem_map] at hmem
      rcases hmem with ⟨l', hl', heq⟩
      exact hl (by simpa [← (Prod.mk.injEq _ _ _ _).mp heq |>.1] using hl')
    · intro l c hmem
      simp only [setCart, updateGlobalCart, notifyListeners, List.mem_map] at hmem
      rcases hmem with ⟨l', _, heq⟩
      exact ((Prod.mk.injEq _ _ _ _).mp heq).2.symm

/-- C9 witness: a functional add-to-cart update on a two-subscriber state
reaches both subscribers with the updated cart and does not reach an
unregistered id. -/
theorem cart_update_propagation_witness :
    (setCart (CartUpdate.updater (handleAddToCart wirelessMouse))
        ⟨[], [], [1, 2]⟩).1.globalCart =
      handleAddToCart wirelessMouse [] ∧
    (1, handleAddToCart wirelessMouse []) ∈
      (setCart (CartUpdate.updater (handleAddToCart wirelessMouse))
        ⟨[], [], [1, 2]⟩).2 ∧
    ∀ c, (9, c) ∉
      (setCart (CartUpdate.updater (handleAddToCart wirelessMouse))
        ⟨[], [], [1, 2]⟩).2 := by
  have h := cart_update_propagation
    (CartUpdate.updater (handleAddToCart wirelessMouse)) ⟨[], [], [1, 2]⟩
  exact ⟨h.1, h.2.2.2.1 1 (by decide), fun c => h.2.2.2.2.1 9 c (by decide)⟩

/-! ### Add-to-cart preserves unique product ids -/

/-- `handleAddToCart` when an entry with the product's id already exists. -/
lemma handleAddToCart_found (p : Product) (cart : List CartItem) (a : CartItem)
    (hfind : cart.find? (fun item => item.product.id == p.id) = some a) :
    handleAddToCart p cart =
      cart.map (fun item =>
        if item.product.id == p.id then
          { item with quantity := item.quantity + 1 }
        else item) := by
  unfold handleAddToCart
  rw [hfind]

/-- `handleAddToCart` when no entry with the product's id exists. -/
lemma handleAddToCart_not_found (p : Product) (cart : List CartItem)
    (hfind : cart.find? (fun item => item.product.id == p.id) = none) :
    handleAddToCart p cart = cart ++ [⟨p, 1⟩] := by
  unfold handleAddToCart
  rw [hfind]

/-- Incrementing a quantity never changes an entry's product id. -/
lemma addToCart_map_ids (p : Product) (cart : List CartItem) :
    (cart.map (fun item =>
        if item.product.id == p.id then
          { item with quantity := item.quantity + 1 }
        else item)).map (fun it => it.product.id) =
      cart.map (fun it => it.product.id) := by
  rw [List.map_map]
  apply List.map_congr_left
  intro it _
  by_cases h : it.product.id = p.id <;> simp [h]

/-- C10: on a cart whose product ids are pairwise distinct, the
add-to-cart updater preserves that invariant; if no entry carries the
product's id, the cart is unchanged except for a new `(product, 1)` entry
appended at the end; if the entry at position `j` carries it, the cart
keeps its length, position `j` is exactly the old entry with its quantity
incremented by 1, and every other position is unchanged. -/
theorem addToCart_unique_ids (p : Product) (cart : List CartItem)
    (hnodup : (cart.map (fun it => it.product.id)).Nodup) :
    ((handleAddToCart p cart).map (fun it => it.product.id)).Nodup ∧
    ((∀ it ∈ cart, it.product.id ≠ p.id) →
      handleAddToCart p cart = cart ++ [⟨p, 1⟩]) ∧
    (∀ (j : Nat) (it : CartItem), cart[j]? = some it → it.product.id = p.id →
      (handleAddToCart p cart).length = cart.length ∧
      (handleAddToCart p cart)[j]? =
        some { it with quantity := it.quantity + 1 } ∧
      ∀ (k : Nat) (it' : CartItem), k ≠ j → cart[k]? = some it' →
        (handleAddToCart p cart)[k]? = some it') := by
  refine ⟨?_, ?_, ?_⟩
  · cases hfind : cart.find? (fun item => item.product.id == p.id) with
    | none =>
      rw [handleAddToCart_not_found p cart hfind, List.map_append]
      have hnotin : p.id ∉ cart.map (fun it => it.product.id) := by
        intro hmem
        rcases List.mem_map.mp hmem with ⟨it, hit, hid⟩
        have hne := List.find?_eq_none.mp hfind it hit
        simp only [beq_iff_eq] at hne
        exact hne hid
      rw [List.nodup_append]
      refine ⟨hnodup, by simp, ?_⟩
      intro x hx hx1
      simp only [List.map_cons, List.map_nil, List.mem_singleton] at hx1
      subst hx1
      exact hnotin hx
    | some a =>
      rw [handleAddToCart_found p cart a hfind, addToCart_map_ids]
      exact hnodup
  · intro hab
    have hfind : cart.find? (fun item => item.product.id == p.id) = none := by
      rw [List.find?_eq_none]
      intro x hx
      simp only [beq_iff_eq]
      exact hab x hx
    exact handleAddToCart_not_found p cart hfind
  · intro j it hj hid
    obtain ⟨hjlt, hjget⟩ := List.getElem?_eq_some.mp hj
    have hmem : it ∈ cart := hjget ▸ List.getElem_mem hjlt
    have hsome : (cart.find? (fun item => item.product.id == p.id)).isSome = true := by
      rw [List.find?_isSome]
      exact ⟨it, hmem, by simp [hid]⟩
    obtain ⟨a, hfind⟩ := Option.isSome_iff_exists.mp hsome
    rw [handleAddToCart_found p cart a hfind]
    refine ⟨List.length_map cart _, ?_, ?_⟩
    · rw [List.getElem?_map, hj]
      simp [hid]
    · intro k it' hkj hk
      have hkid : it'.product.id ≠ p.id := by
        intro heq
        have h1 : (cart.map (fun x => x.product.id))[j]? = some p.id := by
          rw [List.getElem?_map, hj]
          simp [hid]
        have h2 : (cart.map (fun x => x.product.id))[k]? = some p.id := by
          rw [List.getElem?_map, hk]
          simp [heq]
        have hklt : k < (cart.map (fun x => x.product.id)).length := by
          rw [List.length_map]
          exact (List.getElem?_eq_some.mp hk).1
        exact hkj (List.getElem?_inj hklt hnodup (h2.trans h1.symm))
      rw [List.getElem?_map, hk]
      simp [hkid]

/-- C10 witness: adding an already-present product increments exactly its
entry; adding a fresh product appends a quantity-1 entry. -/
theorem addToCart_unique_ids_witness :
    ((handleAddToCart wirelessMouse
        [⟨wirelessMouse, 2⟩, ⟨smartphoneCase, 1⟩]).map
      (fun it => it.product.id)).Nodup ∧
    (handleAddToCart wirelessMouse
        [⟨wirelessMouse, 2⟩, ⟨smartphoneCase, 1⟩])[0]? =
      some ⟨wirelessMouse, 3⟩ ∧
    (handleAddToCart wirelessMouse
        [⟨wirelessMouse, 2⟩, ⟨smartphoneCase, 1⟩])[1]? =
      some ⟨smartphoneCase, 1⟩ ∧
    handleAddToCart tabProduct [⟨wirelessMouse, 2⟩] =
      [⟨wirelessMouse, 2⟩, ⟨tabProduct, 1⟩] := by
  have h1 := addToCart_unique_ids wirelessMouse
    [⟨wirelessMouse, 2⟩, ⟨smartphoneCase, 1⟩] (by decide)
  have h2 := addToCart_unique_ids tabProduct [⟨wirelessMouse, 2⟩] (by decide)
  have hp := h1.2.2 0 ⟨wirelessMouse, 2⟩ rfl rfl
  exact ⟨h1.1, hp.2.1, hp.2.2 1 ⟨smartphoneCase, 1⟩ (by decide) rfl,
    h2.2.1 (by decide)⟩

end Hypercart
